import Mathlib

set_option maxHeartbeats 1000000
set_option linter.unnecessarySeqFocus false
set_option linter.unusedVariables false
set_option linter.unusedTactic false

/-!
Verification of the row-oriented streaming MapReduce engine:
a shallow embedding of the graph builder (`src/graph.py`), the streaming
operators (`src/operations/`: map, reduce, external sort, sort-merge join)
and the mapper/reducer/joiner libraries, together with theorems checking the
natural-language specification against the embedded code.

Rows are Python dicts: insertion-ordered association lists with distinct
keys.  `getVal`, `setVal`, `hasKey` mirror `row[k]`, `row[k] = v`, `k in row`.
-/

namespace MapReduce

/-- Row values: a small concrete universe (null / int / string) covering the
values the verified claims need.  Python rows may hold further types; the
generic row layer below is parametric in the value type `V`. -/
inductive Value where
  | null : Value
  | int : Int → Value
  | str : String → Value
deriving DecidableEq, Repr

/-- An embedding of `Value` into a lexicographic product, giving the value
universe a total order.  Python `<` raises `TypeError` on mixed-type or null
operands; the spec (§9) makes mixed-type keys a user error and leaves the
ordering of nulls open, so any total extension is admissible for the
engine-level definitions. -/
def Value.encode : Value → ℕ ×ₗ (Int ×ₗ String)
  | .null => toLex (0, toLex (0, ""))
  | .int n => toLex (1, toLex (n, ""))
  | .str s => toLex (2, toLex (0, s))

theorem Value.encode_injective : Function.Injective Value.encode := by
  intro a b h
  cases a <;> cases b <;> simp_all [Value.encode, Prod.ext_iff]

instance : LinearOrder Value :=
  LinearOrder.lift' Value.encode Value.encode_injective

section RowDefs

variable {V : Type}

/-- A row: Python's insertion-ordered `dict` from column name to value,
modelled as an association list (real dicts never hold duplicate keys;
theorems assume `Nodup` of the key list where it matters). -/
abbrev Row (V : Type) := List (String × V)

/-- Python lookup `row[k]`: value at key `k` (`none` when the source would raise
`KeyError`). -/
def getVal : Row V → String → Option V
  | [], _ => none
  | (k', v) :: r, k => if k' = k then some v else getVal r k

/-- Python membership test `k in row`. -/
def hasKey (r : Row V) (k : String) : Bool :=
  (getVal r k).isSome

/-- Python assignment `row[k] = v`: replace in place when the key is present (keeping
its position), else append — dict insertion-order semantics. -/
def setVal : Row V → String → V → Row V
  | [], k, v => [(k, v)]
  | (k', v') :: r, k, v => if k' = k then (k, v) :: r else (k', v') :: setVal r k v

theorem getVal_nil (k : String) : getVal ([] : Row V) k = none := rfl

theorem getVal_cons (k' : String) (v : V) (r : Row V) (k : String) :
    getVal ((k', v) :: r) k = if k' = k then some v else getVal r k := rfl

theorem getVal_setVal (r : Row V) (k : String) (v : V) (k' : String) :
    getVal (setVal r k v) k' = if k' = k then some v else getVal r k' := by
  induction r with
  | nil =>
      simp only [setVal, getVal]
      by_cases h : k' = k
      · simp [h]
      · simp [h, Ne.symm h]
  | cons p r ih =>
      obtain ⟨k₀, v₀⟩ := p
      simp only [setVal]
      by_cases h₀ : k₀ = k
      · subst h₀
        by_cases h : k' = k₀
        · subst h; simp [getVal]
        · simp [getVal, h, Ne.symm h]
      · simp only [if_neg h₀, getVal]
        by_cases h : k₀ = k'
        · subst h
          simp [ih, Ne.symm h₀, h₀]
        · simp [h, ih]

theorem setVal_of_getVal_eq {r : Row V} {k : String} {v : V}
    (h : getVal r k = some v) : setVal r k v = r := by
  induction r with
  | nil => simp [getVal] at h
  | cons p r ih =>
      obtain ⟨k₀, v₀⟩ := p
      simp only [getVal] at h
      simp only [setVal]
      by_cases h₀ : k₀ = k
      · subst h₀
        simp only [if_pos rfl] at h ⊢
        cases h
        rfl
      · simp only [if_neg h₀] at h ⊢
        rw [ih h]

theorem setVal_of_not_hasKey {r : Row V} {k : String}
    (h : hasKey r k = false) (v : V) : setVal r k v = r ++ [(k, v)] := by
  induction r with
  | nil => rfl
  | cons p r ih =>
      obtain ⟨k₀, v₀⟩ := p
      simp only [hasKey, getVal] at h
      by_cases h₀ : k₀ = k
      · simp [h₀] at h
      · simp only [setVal, if_neg h₀, List.cons_append, List.cons.injEq, true_and]
        apply ih
        simpa [hasKey, h₀] using h

theorem getVal_append (r s : Row V) (k : String) :
    getVal (r ++ s) k = ((getVal r k).or (getVal s k)) := by
  induction r with
  | nil => simp [getVal]
  | cons p r ih =>
      obtain ⟨k₀, v₀⟩ := p
      by_cases h₀ : k₀ = k
      · simp [getVal, h₀]
      · simp [getVal, h₀, ih]

theorem getVal_eq_some_of_mem_nodup {r : Row V} {k : String} {v : V}
    (hnd : (r.map Prod.fst).Nodup) (hm : (k, v) ∈ r) : getVal r k = some v := by
  induction r with
  | nil => simp at hm
  | cons p r ih =>
      obtain ⟨k₀, v₀⟩ := p
      simp only [List.map_cons, List.nodup_cons] at hnd
      rcases List.mem_cons.mp hm with h | h
      · cases h
        simp [getVal]
      · have hk : k₀ ≠ k := by
          intro hkk
          exact hnd.1 (hkk ▸ (List.mem_map_of_mem Prod.fst h))
        simp [getVal, hk, ih hnd.2 h]

theorem hasKey_iff_mem_keys {r : Row V} {k : String} :
    hasKey r k = true ↔ k ∈ r.map Prod.fst := by
  induction r with
  | nil => simp [hasKey, getVal]
  | cons p r ih =>
      obtain ⟨k₀, v₀⟩ := p
      by_cases h₀ : k₀ = k
      · simp [hasKey, getVal, h₀]
      · simpa [hasKey, getVal, h₀, Ne.symm h₀] using ih

theorem hasKey_append (r s : Row V) (k : String) :
    hasKey (r ++ s) k = (hasKey r k || hasKey s k) := by
  simp only [hasKey, getVal_append]
  cases getVal r k <;> simp [Option.or]

theorem hasKey_eq_false_iff {r : Row V} {k : String} :
    hasKey r k = false ↔ k ∉ r.map Prod.fst := by
  rw [← Bool.not_eq_true, hasKey_iff_mem_keys]

theorem getVal_eq_none_iff {r : Row V} {k : String} :
    getVal r k = none ↔ k ∉ r.map Prod.fst := by
  rw [← hasKey_eq_false_iff]
  simp [hasKey]

theorem setVal_keys_of_hasKey {r : Row V} {k : String}
    (hk : hasKey r k = true) (v : V) :
    (setVal r k v).map Prod.fst = r.map Prod.fst := by
  induction r with
  | nil => simp [hasKey, getVal] at hk
  | cons p r ih =>
      obtain ⟨k₀, v₀⟩ := p
      by_cases h₀ : k₀ = k
      · subst h₀
        simp [setVal]
      · have hk' : hasKey r k = true := by
          simpa [hasKey, getVal, h₀] using hk
        simp [setVal, h₀, ih hk']

theorem setVal_keys_nodup {r : Row V} (hnd : (r.map Prod.fst).Nodup)
    (k : String) (v : V) : ((setVal r k v).map Prod.fst).Nodup := by
  rcases hk : hasKey r k with _ | _
  · rw [setVal_of_not_hasKey hk v, List.map_append]
    simp only [List.map_cons, List.map_nil]
    rw [List.nodup_append]
    refine ⟨hnd, List.nodup_singleton k, ?_⟩
    intro a ha hb
    simp only [List.mem_singleton] at hb
    subst hb
    exact (hasKey_eq_false_iff.mp hk) ha
  · rw [setVal_keys_of_hasKey hk v]
    exact hnd

/-- Looking up the result of writing `v c` at every column `c` of `cols`. -/
theorem getVal_foldl_setVal (v : String → V) :
    ∀ (cols : List String) (acc : Row V) (c : String),
      getVal (cols.foldl (fun a k => setVal a k (v k)) acc) c =
        if c ∈ cols then some (v c) else getVal acc c := by
  intro cols
  induction cols with
  | nil => intro acc c; simp
  | cons k cols ih =>
      intro acc c
      simp only [List.foldl_cons, ih, getVal_setVal]
      by_cases hc : c ∈ cols
      · simp [hc]
      · by_cases hk : c = k
        · simp [hc, hk]
        · simp [hc, hk]

/-- Folding Python's `dict.update(d)` item writes over a duplicate-free `d`. -/
theorem getVal_foldl_pairs :
    ∀ (d : List (String × V)), ((d.map Prod.fst).Nodup) →
      ∀ (nr : Row V) (x : String),
        getVal (d.foldl (fun a p => setVal a p.1 p.2) nr) x =
          ((getVal d x).or (getVal nr x)) := by
  intro d
  induction d with
  | nil => intro _ nr x; simp [getVal]
  | cons p d ih =>
      intro hnd nr x
      obtain ⟨k, v⟩ := p
      simp only [List.map_cons, List.nodup_cons] at hnd
      simp only [List.foldl_cons]
      rw [ih hnd.2]
      by_cases hx : k = x
      · subst hx
        have : getVal d k = none :=
          getVal_eq_none_iff.mpr hnd.1
        simp [this, getVal, getVal_setVal, Option.or]
      · simp [getVal, hx, getVal_setVal, Ne.symm hx]

/-- Folding Python dict assignments `acc[ren c] = v` over a list of entries:
entries whose (unrenamed) key already holds the same value are no-ops, the
rest append in order. -/
theorem foldl_setVal_split (ren : String → String) (dropP : String × V → Bool) :
    ∀ (l : List (String × V)) (acc : Row V),
      (∀ p ∈ l, dropP p = true → getVal acc p.1 = some p.2 ∧ ren p.1 = p.1) →
      ((l.filter (fun p => !dropP p)).map (fun p => ren p.1)).Nodup →
      (∀ p ∈ l, dropP p = false → hasKey acc (ren p.1) = false) →
      l.foldl (fun a p => setVal a (ren p.1) p.2) acc =
        acc ++ (l.filter (fun p => !dropP p)).map (fun p => (ren p.1, p.2)) := by
  intro l
  induction l with
  | nil => intro acc _ _ _; simp
  | cons p l ih =>
      intro acc hdrop hnd hfresh
      rcases hdp : dropP p with _ | _
      · -- kept entry: fresh name, appended
        have hfr : hasKey acc (ren p.1) = false :=
          hfresh p (List.mem_cons_self _ _) hdp
        have hstep : setVal acc (ren p.1) p.2 = acc ++ [(ren p.1, p.2)] :=
          setVal_of_not_hasKey hfr p.2
        simp only [List.foldl_cons, hstep]
        have hfilter : (p :: l).filter (fun q => !dropP q) =
            p :: l.filter (fun q => !dropP q) := by
          simp [List.filter_cons, hdp]
        have hndtail : ((l.filter (fun q => !dropP q)).map (fun q => ren q.1)).Nodup := by
          rw [hfilter, List.map_cons] at hnd
          exact hnd.of_cons
        have hnotin : ∀ q ∈ l.filter (fun q => !dropP q), ren q.1 ≠ ren p.1 := by
          intro q hq
          rw [hfilter, List.map_cons] at hnd
          have := (List.nodup_cons.mp hnd).1
          intro he
          exact this (he ▸ List.mem_map_of_mem (fun q => ren q.1) hq)
        rw [ih (acc ++ [(ren p.1, p.2)])
          (by
            intro q hq hdq
            obtain ⟨hv, hr⟩ := hdrop q (List.mem_cons_of_mem _ hq) hdq
            refine ⟨?_, hr⟩
            rw [getVal_append, hv]
            rfl)
          hndtail
          (by
            intro q hq hdq
            rw [hasKey_append, hfresh q (List.mem_cons_of_mem _ hq) hdq]
            have hqkept : q ∈ l.filter (fun q => !dropP q) :=
              List.mem_filter.mpr ⟨hq, by simp [hdq]⟩
            have hne : ren q.1 ≠ ren p.1 := hnotin q hqkept
            simp [hasKey, getVal, Ne.symm hne])]
        rw [hfilter, List.map_cons, List.append_assoc]
        rfl
      · -- dropped entry: assignment of the already-present value, a no-op
        obtain ⟨hv, hr⟩ := hdrop p (List.mem_cons_self _ _) hdp
        have hstep : setVal acc (ren p.1) p.2 = acc := by
          rw [hr]
          exact setVal_of_getVal_eq hv
        have hfilter : (p :: l).filter (fun q => !dropP q) =
            l.filter (fun q => !dropP q) := by
          simp [List.filter_cons, hdp]
        simp only [List.foldl_cons, hstep, hfilter]
        exact ih acc (fun q hq => hdrop q (List.mem_cons_of_mem _ hq))
          (by rw [hfilter] at hnd; exact hnd)
          (fun q hq => hfresh q (List.mem_cons_of_mem _ hq))

/-- Looking a fixed-point column up in a renamed copy of a row. -/
theorem getVal_map_ren (ren : String → String) (ra : Row V) (c : String)
    (hc : ren c = c) (hk : hasKey ra c = true)
    (hnd : (ra.map (fun q => ren q.1)).Nodup) :
    getVal (ra.map (fun q => (ren q.1, q.2))) c = getVal ra c := by
  induction ra with
  | nil => simp [hasKey, getVal] at hk
  | cons q ra ih =>
      simp only [List.map_cons, List.nodup_cons] at hnd
      by_cases hq : q.1 = c
      · simp [getVal, hq, hc]
      · have hrq : ren q.1 ≠ c := by
          intro he
          have hkc : hasKey ra c = true := by
            simpa [hasKey, getVal, hq] using hk
          have : c ∈ ra.map Prod.fst := hasKey_iff_mem_keys.mp hkc
          obtain ⟨e, he', hec⟩ := List.mem_map.mp this
          have : ren e.1 = c := by rw [hec, hc]
          exact hnd.1 (he ▸ (this ▸ List.mem_map_of_mem (fun q => ren q.1) he'))
        have hkc : hasKey ra c = true := by
          simpa [hasKey, getVal, hq] using hk
        simp only [List.map_cons, getVal, hq, hrq, if_neg, if_false]
        exact ih hkc hnd.2

end RowDefs

/-! ## `itertools.groupby`

`Reduce.__call__` and `Join.__call__` group their (pre-sorted) input into
maximal contiguous runs of key-equal rows with `itertools.groupby`. -/

/-- Python `itertools.groupby(xs, key=keyOf)`: the maximal contiguous runs of
key-equal elements, each paired with its key (structural formulation: an
element is prepended to the following run when its key matches, else it
opens a new run). -/
def pyGroupBy {α K : Type} [DecidableEq K] (keyOf : α → K) : List α → List (K × List α)
  | [] => []
  | x :: xs =>
      match pyGroupBy keyOf xs with
      | [] => [(keyOf x, [x])]
      | (k, run) :: gs =>
          if keyOf x = k then (k, x :: run) :: gs
          else (keyOf x, [x]) :: (k, run) :: gs

theorem pyGroupBy_flatMap {α K : Type} [DecidableEq K] (keyOf : α → K) (l : List α) :
    (pyGroupBy keyOf l).flatMap Prod.snd = l := by
  induction l with
  | nil => rfl
  | cons x xs ih =>
      simp only [pyGroupBy]
      cases hg : pyGroupBy keyOf xs with
      | nil =>
          rw [hg] at ih
          simp only [List.flatMap_nil] at ih
          simp [← ih]
      | cons p gs =>
          obtain ⟨k, run⟩ := p
          rw [hg] at ih
          by_cases hk : keyOf x = k
          · simp only [hk, if_pos rfl]
            simp only [List.flatMap_cons] at ih ⊢
            simp [← ih, List.cons_append]
          · simp only [if_neg hk]
            simp only [List.flatMap_cons] at ih ⊢
            simp [← ih]

theorem pyGroupBy_run_spec {α K : Type} [DecidableEq K] (keyOf : α → K) (l : List α) :
    ∀ p ∈ pyGroupBy keyOf l,
      (∃ x tl, p.2 = x :: tl) ∧ ∀ y ∈ p.2, keyOf y = p.1 := by
  induction l with
  | nil => simp [pyGroupBy]
  | cons x xs ih =>
      intro p hp
      cases hg : pyGroupBy keyOf xs with
      | nil =>
          simp only [pyGroupBy, hg, List.mem_singleton] at hp
          subst hp
          exact ⟨⟨x, [], rfl⟩, by simp⟩
      | cons q gs =>
          obtain ⟨k, run⟩ := q
          simp only [pyGroupBy, hg] at hp
          by_cases hk : keyOf x = k
          · rw [if_pos hk] at hp
            rcases List.mem_cons.mp hp with hp | hp
            · subst hp
              refine ⟨⟨x, run, rfl⟩, ?_⟩
              intro y hy
              rcases List.mem_cons.mp hy with hy | hy
              · subst hy; exact hk
              · exact (ih (k, run) (hg ▸ List.mem_cons_self _ _)).2 y hy
            · exact ih p (hg ▸ List.mem_cons_of_mem _ hp)
          · rw [if_neg hk] at hp
            rcases List.mem_cons.mp hp with hp | hp
            · subst hp
              exact ⟨⟨x, [], rfl⟩, by simp⟩
            · exact ih p (hg ▸ hp)

theorem pyGroupBy_chain {α K : Type} [DecidableEq K] (keyOf : α → K) (l : List α) :
    List.Chain' (fun p q => p.1 ≠ q.1) (pyGroupBy keyOf l) := by
  induction l with
  | nil => simp [pyGroupBy]
  | cons x xs ih =>
      cases hg : pyGroupBy keyOf xs with
      | nil => simp [pyGroupBy, hg]
      | cons q gs =>
          obtain ⟨k, run⟩ := q
          rw [hg] at ih
          simp only [pyGroupBy, hg]
          by_cases hk : keyOf x = k
          · rw [if_pos hk]
            rw [List.chain'_cons'] at ih ⊢
            exact ih
          · rw [if_neg hk]
            rw [List.chain'_cons']
            exact ⟨fun b hb => by simp only [List.head?_cons, Option.mem_def,
              Option.some.injEq] at hb; subst hb; exact hk, ih⟩

/-! ## Python tuple comparison and the external sort

`do_sort` (src/operations/external_sort.py) collects all rows and calls
`rows.sort(key=itemgetter(*keys), reverse=reverse)` — a *stable* sort by the
tuple of key values (for a single key `itemgetter` returns the bare value,
whose ordering coincides with that of the 1-tuple).  The helper process and
the sentinel-terminated channel only move rows around; the emitted stream is
the sorted list, and the row-count assertion is subsumed by the permutation
property proved below. -/

section TupleOrder

variable {W : Type} (ltW : W → W → Bool)

/-- Python comparison `<` on tuples: lexicographic, a strict prefix is smaller. -/
def tupleLt : List W → List W → Bool
  | _, [] => false
  | [], _ :: _ => true
  | a :: as, b :: bs => if ltW a b then true else if ltW b a then false else tupleLt as bs

theorem tupleLt_asymm (hasymm : ∀ x y : W, ltW x y = true → ltW y x = false) :
    ∀ a b : List W, tupleLt ltW a b = true → tupleLt ltW b a = false := by
  intro a
  induction a with
  | nil =>
      intro b h
      cases b with
      | nil => simp [tupleLt] at h
      | cons y ys => simp [tupleLt]
  | cons x xs ih =>
      intro b h
      cases b with
      | nil => simp [tupleLt] at h
      | cons y ys =>
          simp only [tupleLt] at h ⊢
          rcases hxy : ltW x y with _ | _ <;> rcases hyx : ltW y x with _ | _ <;>
              simp only [hxy, hyx, if_true, if_false, Bool.false_eq_true, Bool.true_eq_false,
                ite_true, ite_false] at h ⊢
          · exact ih ys h
          · exact absurd (hasymm x y hxy) (by simp [hyx])

theorem eq_of_not_tupleLt (hconn : ∀ x y : W, ltW x y = false → ltW y x = false → x = y) :
    ∀ a b : List W, tupleLt ltW a b = false → tupleLt ltW b a = false → a = b := by
  intro a
  induction a with
  | nil =>
      intro b h _
      cases b with
      | nil => rfl
      | cons y ys => simp [tupleLt] at h
  | cons x xs ih =>
      intro b h h'
      cases b with
      | nil => simp [tupleLt] at h'
      | cons y ys =>
          simp only [tupleLt] at h h'
          rcases hxy : ltW x y with _ | _ <;> rcases hyx : ltW y x with _ | _ <;>
              simp only [hxy, hyx, if_true, if_false, Bool.false_eq_true, Bool.true_eq_false,
                ite_true, ite_false] at h h'
          have hx : x = y := hconn x y hxy hyx
          have hxs : xs = ys := ih ys h h'
          rw [hx, hxs]

theorem tupleLt_trans
    (htrans : ∀ x y z : W, ltW x y = true → ltW y z = true → ltW x z = true)
    (hconn : ∀ x y : W, ltW x y = false → ltW y x = false → x = y) :
    ∀ a b c : List W, tupleLt ltW a b = true → tupleLt ltW b c = true →
      tupleLt ltW a c = true := by
  intro a
  induction a with
  | nil =>
      intro b c hab hbc
      cases c with
      | nil =>
          cases b with
          | nil => simp [tupleLt] at hab
          | cons y ys => simp [tupleLt] at hbc
      | cons z zs => simp [tupleLt]
  | cons x xs ih =>
      intro b c hab hbc
      cases b with
      | nil => simp [tupleLt] at hab
      | cons y ys =>
          cases c with
          | nil => simp [tupleLt] at hbc
          | cons z zs =>
              simp only [tupleLt] at hab hbc ⊢
              rcases hxy : ltW x y with _ | _ <;> rcases hyx : ltW y x with _ | _ <;>
                  simp only [hxy, hyx, if_true, if_false, Bool.false_eq_true, Bool.true_eq_false,
                    ite_true, ite_false] at hab
              · -- `x = y`
                have hxyeq : x = y := hconn x y hxy hyx
                subst hxyeq
                rcases hxz : ltW x z with _ | _ <;> rcases hzx : ltW z x with _ | _ <;>
                    simp only [hxz, hzx, if_true, if_false, Bool.false_eq_true,
                      Bool.true_eq_false, ite_true, ite_false] at hbc ⊢ <;>
                  try rfl
                exact ih ys zs hab hbc
              all_goals
                rcases hyz : ltW y z with _ | _ <;> rcases hzy : ltW z y with _ | _ <;>
                    simp only [hyz, hzy, if_true, if_false, Bool.false_eq_true,
                      Bool.true_eq_false, ite_true, ite_false] at hbc
                · have hyzeq : y = z := hconn y z hyz hzy
                  subst hyzeq
                  simp [hxy]
                · have hxz := htrans x y z hxy hyz
                  simp [hxz]
                · have hxz := htrans x y z hxy hyz
                  simp [hxz]

theorem tupleLt_irrefl (hirr : ∀ x : W, ltW x x = false) :
    ∀ a : List W, tupleLt ltW a a = false := by
  intro a
  induction a with
  | nil => rfl
  | cons x xs ih => simp [tupleLt, hirr x, ih]

theorem not_tupleLt_trans
    (htrans : ∀ x y z : W, ltW x y = true → ltW y z = true → ltW x z = true)
    (hconn : ∀ x y : W, ltW x y = false → ltW y x = false → x = y) :
    ∀ a b c : List W, tupleLt ltW b a = false → tupleLt ltW c b = false →
      tupleLt ltW c a = false := by
  intro a b c h₁ h₂
  by_contra hca
  rw [Bool.not_eq_false] at hca
  rcases hbc : tupleLt ltW b c with _ | _
  · have hbceq : b = c := eq_of_not_tupleLt ltW hconn b c hbc h₂
    rw [hbceq] at h₁
    rw [h₁] at hca
    exact Bool.false_ne_true hca
  · have hba := tupleLt_trans ltW htrans hconn b c a hbc hca
    rw [hba] at h₁
    exact Bool.false_ne_true h₁.symm

end TupleOrder

section SortDefs

variable {V : Type} [LinearOrder V]

/-- Comparison of two `row[k]` results; `none` (absent key) stands where the
source would raise, and the claims assume presence. -/
def optLt : Option V → Option V → Bool
  | none, none => false
  | none, some _ => true
  | some _, none => false
  | some x, some y => decide (x < y)

theorem optLt_asymm (x y : Option V) : optLt x y = true → optLt y x = false := by
  cases x <;> cases y <;> simp [optLt] <;> intro h <;> exact le_of_lt h

theorem optLt_trans (x y z : Option V) :
    optLt x y = true → optLt y z = true → optLt x z = true := by
  cases x <;> cases y <;> cases z <;> simp [optLt]
  exact fun h h' => lt_trans h h'

theorem optLt_conn (x y : Option V) :
    optLt x y = false → optLt y x = false → x = y := by
  cases x <;> cases y <;> simp [optLt]
  intro h h'
  exact le_antisymm h' h

/-- Python `tuple(row[k] for k in keys)`: the sort/group key of a row. -/
def sortKeyOf (keys : List String) (r : Row V) : List (Option V) :=
  keys.map (fun k => getVal r k)

/-- The `le` relation realised by Python's stable `list.sort` on the key
tuples: ascending `r ≤ s` is `not (key s < key r)`; with `reverse=True` the
sort is by the opposite relation and remains stable. -/
def rowSortLe (keys : List String) (reverse : Bool) (r s : Row V) : Bool :=
  if reverse then !tupleLt optLt (sortKeyOf keys r) (sortKeyOf keys s)
  else !tupleLt optLt (sortKeyOf keys s) (sortKeyOf keys r)

/-- Model of `ExternalSort.__call__` composed with `do_sort`: stable sort of the materialised
stream by the key tuple, descending when `reverse`. -/
def externalSort (keys : List String) (reverse : Bool) (rows : List (Row V)) :
    List (Row V) :=
  rows.mergeSort (rowSortLe keys reverse)

theorem rowSortLe_total (keys : List String) (reverse : Bool) (r s : Row V) :
    rowSortLe keys reverse r s || rowSortLe keys reverse s r := by
  have h := tupleLt_asymm (optLt (V := V)) optLt_asymm
  cases reverse <;>
      simp only [rowSortLe, Bool.false_eq_true, if_false, if_true, Bool.or_eq_true,
        Bool.not_eq_true'] <;>
    · rcases hlt : tupleLt optLt (sortKeyOf keys s) (sortKeyOf keys r) with _ | _
      · first
        | exact Or.inl rfl
        | exact Or.inr rfl
      · first
        | exact Or.inr (h _ _ hlt)
        | exact Or.inl (h _ _ hlt)

theorem rowSortLe_trans (keys : List String) (reverse : Bool) (a b c : Row V) :
    rowSortLe keys reverse a b → rowSortLe keys reverse b c →
      rowSortLe keys reverse a c := by
  have hnt := not_tupleLt_trans (optLt (V := V)) optLt_trans optLt_conn
  cases reverse <;>
      simp only [rowSortLe, Bool.false_eq_true, if_false, if_true, Bool.not_eq_true'] <;>
    · intro h₁ h₂
      first
      | exact hnt _ _ _ h₁ h₂
      | exact hnt _ _ _ h₂ h₁

theorem optLt_irrefl (x : Option V) : optLt x x = false := by
  cases x <;> simp [optLt]

theorem rowSortLe_of_eq_keys (keys : List String) (reverse : Bool) (r s : Row V)
    (h : sortKeyOf keys r = sortKeyOf keys s) : rowSortLe keys reverse r s = true := by
  have hirr := tupleLt_irrefl (optLt (V := V)) optLt_irrefl
  cases reverse <;>
      simp only [rowSortLe, Bool.false_eq_true, if_false, if_true, h, Bool.not_eq_true'] <;>
    exact hirr _

theorem pairwise_rowSortLe_of_const_key (keys : List String) (reverse : Bool)
    (t : List (Option V)) :
    ∀ l : List (Row V), (∀ r ∈ l, sortKeyOf keys r = t) →
      l.Pairwise (fun r s => rowSortLe keys reverse r s = true) := by
  intro l
  induction l with
  | nil => intro _; exact List.Pairwise.nil
  | cons x xs ih =>
      intro h
      refine List.Pairwise.cons ?_ (ih fun r hr => h r (List.mem_cons_of_mem _ hr))
      intro s hs
      exact rowSortLe_of_eq_keys keys reverse x s
        ((h x (List.mem_cons_self _ _)).trans (h s (List.mem_cons_of_mem _ hs)).symm)

/-- C3: `ExternalSort(keys, reverse)` emits a permutation of its input stream
(so multiplicity and row count are preserved), ordered ascending — descending
when `reverse` — by the tuple of key values, and stably: the rows having any
fixed key tuple appear in their input order. -/
theorem externalSort_correct (keys : List String) (reverse : Bool)
    (rows : List (Row V)) (hkeys : keys ≠ [])
    (hpres : ∀ r ∈ rows, ∀ k ∈ keys, hasKey r k = true) :
    (externalSort keys reverse rows).Perm rows ∧
    (externalSort keys reverse rows).Pairwise
      (fun r s => rowSortLe keys reverse r s = true) ∧
    ∀ t : List (Option V),
      (externalSort keys reverse rows).filter (fun r => decide (sortKeyOf keys r = t)) =
        rows.filter (fun r => decide (sortKeyOf keys r = t)) := by
  refine ⟨List.mergeSort_perm rows _, ?_, ?_⟩
  · exact List.sorted_mergeSort
      (fun a b c => rowSortLe_trans keys reverse a b c)
      (fun a b => rowSortLe_total keys reverse a b) rows
  · intro t
    have hmemf : ∀ r ∈ rows.filter (fun r => decide (sortKeyOf keys r = t)),
        sortKeyOf keys r = t := by
      intro r hr
      have := List.of_mem_filter hr
      simpa using this
    have hsub : List.Sublist (rows.filter (fun r => decide (sortKeyOf keys r = t)))
        (externalSort keys reverse rows) := by
      apply List.sublist_mergeSort
        (fun a b c => rowSortLe_trans keys reverse a b c)
        (fun a b => rowSortLe_total keys reverse a b)
        (pairwise_rowSortLe_of_const_key keys reverse t _ hmemf)
        (List.filter_sublist rows)
    have hself : (rows.filter (fun r => decide (sortKeyOf keys r = t))).filter
        (fun r => decide (sortKeyOf keys r = t)) =
        rows.filter (fun r => decide (sortKeyOf keys r = t)) :=
      List.filter_eq_self.mpr (fun a ha => by simpa using hmemf a ha)
    have hsub2 : List.Sublist (rows.filter (fun r => decide (sortKeyOf keys r = t)))
        ((externalSort keys reverse rows).filter (fun r => decide (sortKeyOf keys r = t))) := by
      have := hsub.filter (fun r => decide (sortKeyOf keys r = t))
      rwa [hself] at this
    have hperm : List.Perm ((externalSort keys reverse rows).filter
        (fun r => decide (sortKeyOf keys r = t)))
        (rows.filter (fun r => decide (sortKeyOf keys r = t))) :=
      (List.mergeSort_perm rows _).filter _
    exact (hsub2.eq_of_length hperm.length_eq.symm).symm

end SortDefs

/-- Witness for C3: a two-row stream over `V := Int`, key `"a"`, ascending. -/
theorem externalSort_correct_witness :
    (externalSort ["a"] false
        ([[("a", (2 : Int))], [("a", (1 : Int))]] : List (Row Int))).Perm
      ([[("a", (2 : Int))], [("a", (1 : Int))]]) ∧
    (externalSort ["a"] false
        ([[("a", (2 : Int))], [("a", (1 : Int))]] : List (Row Int))).Pairwise
      (fun r s => rowSortLe ["a"] false r s = true) ∧
    (externalSort ["a"] false
        ([[("a", (2 : Int))], [("a", (1 : Int))]] : List (Row Int))).filter
        (fun r => decide (sortKeyOf ["a"] r = [some (1 : Int)])) =
      ([[("a", (2 : Int))], [("a", (1 : Int))]] : List (Row Int)).filter
        (fun r => decide (sortKeyOf ["a"] r = [some (1 : Int)])) := by
  have h := externalSort_correct (V := Int) ["a"] false
    [[("a", (2 : Int))], [("a", (1 : Int))]] (by decide)
    (by
      intro r hr k hk
      fin_cases hr <;> fin_cases hk <;> decide)
  exact ⟨h.1, h.2.1, h.2.2 [some (1 : Int)]⟩

/-! ## Join (src/operations/join.py)

`Joiner._join_two_rows` composes one output row from a left row and a right
row; the four joiner strategies produce the rows of one key group; and
`Join.__call__` walks the two `groupby`-grouped streams in merge order. -/

section JoinDefs

variable {V : Type}

/-- Model of `Joiner._join_two_rows(keys, row_a, row_b)`: build the joined row with a
fresh dict, writing `row_a`'s entries then `row_b`'s in iteration order, and
renaming every column in `(set(row_a) & set(row_b)) - set(keys)` with the
joiner's suffixes. -/
def joinTwoRows (sa sb : String) (keys : List String) (ra rb : Row V) : Row V :=
  let inter : String → Bool := fun k => hasKey ra k && hasKey rb k && !(keys.contains k)
  let j1 := ra.foldl
    (fun acc p => if inter p.1 then setVal acc (p.1 ++ sa) p.2 else setVal acc p.1 p.2) []
  rb.foldl
    (fun acc p => if inter p.1 then setVal acc (p.1 ++ sb) p.2 else setVal acc p.1 p.2) j1

/-- Model of `InnerJoiner.__call__`: nested loop over the left group then the
buffered right group.  (The source's `if rows_a and rows_b` tests the truth
value of two iterator objects, which is always true, so it imposes nothing.) -/
def innerJoiner (sa sb : String) (keys : List String) (rowsA rowsB : List (Row V)) :
    List (Row V) :=
  rowsA.flatMap (fun ra => rowsB.map (fun rb => joinTwoRows sa sb keys ra rb))

/-- Python idiom `list(rows) or [{}]`: an empty materialised group is replaced by
the one-element list holding the empty row. -/
def orEmptyRow : List (Row V) → List (Row V)
  | [] => [[]]
  | l => l

/-- Model of `OuterJoiner.__call__`: either side, when empty, is replaced by `[{}]`. -/
def outerJoiner (sa sb : String) (keys : List String) (rowsA rowsB : List (Row V)) :
    List (Row V) :=
  (orEmptyRow rowsA).flatMap
    (fun ra => (orEmptyRow rowsB).map (fun rb => joinTwoRows sa sb keys ra rb))

/-- Model of `LeftJoiner.__call__`: the right side, when empty, is replaced by `[{}]`. -/
def leftJoiner (sa sb : String) (keys : List String) (rowsA rowsB : List (Row V)) :
    List (Row V) :=
  rowsA.flatMap (fun ra => (orEmptyRow rowsB).map
    (fun rb => joinTwoRows sa sb keys ra rb))

/-- Model of `RightJoiner.__call__`: the left side, when empty, is replaced by `[{}]`;
the outer loop runs over `rows_b` and each right row is passed as the *first*
argument of `_join_two_rows` (the source's variables `row_a`/`row_b` are
swapped), so the right row's columns come first and receive `suffix_a`. -/
def rightJoiner (sa sb : String) (keys : List String) (rowsA rowsB : List (Row V)) :
    List (Row V) :=
  rowsB.flatMap (fun rb => (orEmptyRow rowsA).map
    (fun ra => joinTwoRows sa sb keys rb ra))

/-- The spec's row-composition rule, written from its words: output row = L's
columns then R's columns; every column of
`overlap = (columns(L) ∩ columns(R)) \ K` is renamed with `suffix_a` on L's
value and `suffix_b` on R's; columns on only one side keep their name;
join-key columns appear once (R's copy of a key column already present on L
is not re-emitted). -/
def specJoinRow (sa sb : String) (keys : List String) (ra rb : Row V) : Row V :=
  let overlapB : String → Bool := fun c => hasKey ra c && hasKey rb c && !(keys.contains c)
  ra.map (fun p => (if overlapB p.1 then p.1 ++ sa else p.1, p.2)) ++
    (rb.filter (fun p => !(keys.contains p.1 && hasKey ra p.1))).map
      (fun p => (if overlapB p.1 then p.1 ++ sb else p.1, p.2))

theorem joinTwoRows_eq_spec (sa sb : String) (keys : List String) (ra rb : Row V)
    (h1 : (ra.map Prod.fst).Nodup) (h2 : (rb.map Prod.fst).Nodup)
    (h3 : ((specJoinRow sa sb keys ra rb).map Prod.fst).Nodup)
    (h4 : ∀ k ∈ keys, hasKey ra k = true → hasKey rb k = true →
      getVal ra k = getVal rb k) :
    joinTwoRows sa sb keys ra rb = specJoinRow sa sb keys ra rb := by
  classical
  set inter : String → Bool :=
    fun k => hasKey ra k && hasKey rb k && !(keys.contains k) with hinter
  set renA : String → String := fun c => if inter c then c ++ sa else c with hrenA
  set renB : String → String := fun c => if inter c then c ++ sb else c with hrenB
  set dropB : String × V → Bool :=
    fun p => keys.contains p.1 && hasKey ra p.1 with hdropB
  -- the two halves of the spec row and the `Nodup`/`Disjoint` content of h3
  have hspec : specJoinRow sa sb keys ra rb =
      ra.map (fun p => (renA p.1, p.2)) ++
        (rb.filter (fun p => !dropB p)).map (fun p => (renB p.1, p.2)) := by
    simp only [specJoinRow, hrenA, hrenB, hinter, hdropB]
  have h3' := h3
  rw [hspec, List.map_append, List.map_map, List.map_map] at h3'
  have hndA : (ra.map (fun q => renA q.1)).Nodup := by
    have := (List.nodup_append.mp h3').1
    simpa [Function.comp] using this
  have hndB : ((rb.filter (fun p => !dropB p)).map (fun q => renB q.1)).Nodup := by
    have := (List.nodup_append.mp h3').2.1
    simpa [Function.comp] using this
  have hdisj : ∀ n ∈ (rb.filter (fun p => !dropB p)).map (fun q => renB q.1),
      n ∉ ra.map (fun q => renA q.1) := by
    intro n hn hmem
    have hd := (List.nodup_append.mp h3').2.2
    have hma : n ∈ ra.map ((fun p => p.1) ∘ fun p => ((renA p.1 : String), p.2)) := by
      simpa [Function.comp] using hmem
    have hmb : n ∈ (rb.filter (fun p => !dropB p)).map
        ((fun p => p.1) ∘ fun p => ((renB p.1 : String), p.2)) := by
      simpa [Function.comp] using hn
    exact hd hma hmb
  -- phase 1: the fold over `ra` from the empty dict appends every entry
  have hbody1 : (fun (acc : Row V) (p : String × V) =>
      if inter p.1 then setVal acc (p.1 ++ sa) p.2 else setVal acc p.1 p.2) =
      (fun acc p => setVal acc (renA p.1) p.2) := by
    funext acc p
    by_cases h : inter p.1 = true
    · simp [hrenA, h]
    · simp only [Bool.not_eq_true] at h
      simp [hrenA, h]
  have hphase1 : ra.foldl (fun acc p => setVal acc (renA p.1) p.2) [] =
      ra.map (fun p => (renA p.1, p.2)) := by
    have := foldl_setVal_split renA (fun _ => false) ra []
      (by intro p _ h; simp at h)
      (by simpa using hndA)
      (by intro p _ _; rfl)
    simpa using this
  -- phase 2: dropped entries (join keys already on the left) are no-ops,
  -- kept entries append
  have hbody2 : (fun (acc : Row V) (p : String × V) =>
      if inter p.1 then setVal acc (p.1 ++ sb) p.2 else setVal acc p.1 p.2) =
      (fun acc p => setVal acc (renB p.1) p.2) := by
    funext acc p
    by_cases h : inter p.1 = true
    · simp [hrenB, h]
    · simp only [Bool.not_eq_true] at h
      simp [hrenB, h]
  have hphase2 : rb.foldl (fun acc p => setVal acc (renB p.1) p.2)
      (ra.map (fun p => (renA p.1, p.2))) =
      ra.map (fun p => (renA p.1, p.2)) ++
        (rb.filter (fun p => !dropB p)).map (fun p => (renB p.1, p.2)) := by
    apply foldl_setVal_split renB dropB rb (ra.map (fun p => (renA p.1, p.2)))
    · -- dropped entries: `p.1` is a join key present on both sides with the
      -- same value, and is not renamed
      intro p hp hdp
      simp only [hdropB, Bool.and_eq_true] at hdp
      obtain ⟨hkc, hka⟩ := hdp
      have hkmem : p.1 ∈ keys := by simpa using hkc
      have hnotint : inter p.1 = false := by
        simp [hinter, hkc, hkmem]
      have hrb : renB p.1 = p.1 := by
        simp [hrenB, hnotint]
      have hrakeep : renA p.1 = p.1 := by
        simp [hrenA, hnotint]
      refine ⟨?_, hrb⟩
      have hkb : hasKey rb p.1 = true := by
        rw [hasKey_iff_mem_keys]
        exact List.mem_map_of_mem Prod.fst hp
      have hvb : getVal rb p.1 = some p.2 := getVal_eq_some_of_mem_nodup h2 hp
      have hva : getVal ra p.1 = some p.2 := by
        rw [h4 p.1 hkmem hka hkb]
        exact hvb
      rw [getVal_map_ren renA ra p.1 hrakeep hka hndA]
      exact hva
    · exact hndB
    · -- kept entries have names disjoint from the left half
      intro p hp hdp
      rw [hasKey_eq_false_iff]
      intro hmem
      have hkept : p ∈ rb.filter (fun q => !dropB q) :=
        List.mem_filter.mpr ⟨hp, by simp [hdp]⟩
      have : renB p.1 ∈ (rb.filter (fun q => !dropB q)).map (fun q => renB q.1) :=
        List.mem_map_of_mem _ hkept
      refine hdisj _ this ?_
      have : (ra.map (fun p => ((renA p.1 : String), p.2))).map Prod.fst =
          ra.map (fun q => renA q.1) := by
        simp [Function.comp]
      rwa [this] at hmem
  calc joinTwoRows sa sb keys ra rb
      = rb.foldl (fun acc p => setVal acc (renB p.1) p.2)
          (ra.foldl (fun acc p => setVal acc (renA p.1) p.2) []) := by
        simp only [joinTwoRows, hinter, hbody1, hbody2]
    _ = ra.map (fun p => (renA p.1, p.2)) ++
          (rb.filter (fun p => !dropB p)).map (fun p => (renB p.1, p.2)) := by
        rw [hphase1, hphase2]
    _ = specJoinRow sa sb keys ra rb := hspec.symm

/-- Joining a row of a one-sided group against the merge's empty iterator
reproduces the row (no columns from the missing side, no renaming). -/
theorem joinTwoRows_nil_right (sa sb : String) (keys : List String) (ra : Row V)
    (h1 : (ra.map Prod.fst).Nodup) :
    joinTwoRows sa sb keys ra [] = ra := by
  have hbody : (fun (acc : Row V) (p : String × V) =>
      if hasKey ra p.1 && hasKey ([] : Row V) p.1 && !(keys.contains p.1) then
        setVal acc (p.1 ++ sa) p.2
      else setVal acc p.1 p.2) = (fun acc p => setVal acc p.1 p.2) := by
    funext acc p
    simp [hasKey, getVal]
  have := foldl_setVal_split (V := V) id (fun _ => false) ra []
    (by intro p _ h; simp at h)
    (by simpa using h1)
    (by intro p _ _; rfl)
  simp only [joinTwoRows, hbody, List.foldl_nil]
  simpa using this

theorem joinTwoRows_nil_left (sa sb : String) (keys : List String) (rb : Row V)
    (h2 : (rb.map Prod.fst).Nodup) :
    joinTwoRows sa sb keys [] rb = rb := by
  have hbody : (fun (acc : Row V) (p : String × V) =>
      if hasKey ([] : Row V) p.1 && hasKey rb p.1 && !(keys.contains p.1) then
        setVal acc (p.1 ++ sb) p.2
      else setVal acc p.1 p.2) = (fun acc p => setVal acc p.1 p.2) := by
    funext acc p
    simp [hasKey, getVal]
  have := foldl_setVal_split (V := V) id (fun _ => false) rb []
    (by intro p _ h; simp at h)
    (by simpa using h2)
    (by intro p _ _; rfl)
  simp only [joinTwoRows, hbody, List.foldl_nil]
  simpa using this

end JoinDefs

section JoinMerge

variable {V : Type} [LinearOrder V]

/-- Model of `Join.__call__`'s merge over the two `groupby` streams: compare the key
tuples of the current groups; on `<` emit the left group against the empty
iterator, on `>` the right group against it, on equality both groups, then
advance; a drained side leaves the other to be flushed against the empty
iterator.  `J` is the joiner applied to (left group, right group). -/
def joinGroups (J : List (Row V) → List (Row V) → List (Row V)) :
    List (List (Option V) × List (Row V)) → List (List (Option V) × List (Row V)) →
      List (Row V)
  | [], gb => gb.flatMap (fun q => J [] q.2)
  | p :: ga, [] => (p :: ga).flatMap (fun q => J q.2 [])
  | p :: ga, q :: gb =>
      if tupleLt optLt p.1 q.1 then
        J p.2 [] ++ joinGroups J ga (q :: gb)
      else if tupleLt optLt q.1 p.1 then
        J [] q.2 ++ joinGroups J (p :: ga) gb
      else
        J p.2 q.2 ++ joinGroups J ga gb
termination_by ga gb => ga.length + gb.length
decreasing_by all_goals simp +arith [List.length_cons]

/-- Model of `Join.__call__`: group both key-sorted inputs contiguously by the join
key tuple and merge. -/
def joinOp (J : List (Row V) → List (Row V) → List (Row V)) (keys : List String)
    (rowsA rowsB : List (Row V)) : List (Row V) :=
  joinGroups J (pyGroupBy (sortKeyOf keys) rowsA) (pyGroupBy (sortKeyOf keys) rowsB)

/-- In the merge, a group whose key never occurs on the right is emitted as
one contiguous block obtained by calling the joiner on (group, ∅). -/
theorem joinGroups_block_left (J : List (Row V) → List (Row V) → List (Row V))
    (t : List (Option V)) (g : List (Row V))
    (ga gb : List (List (Option V) × List (Row V))) :
    ∀ p s, ga = p ++ (t, g) :: s → t ∉ gb.map Prod.fst →
      ∃ X Y, joinGroups J ga gb = X ++ (J g [] ++ Y) := by
  induction ga, gb using joinGroups.induct J with
  | case1 gb =>
      intro p s hga hgb
      exact absurd hga.symm (by simp)
  | case2 p₀ ga =>
      intro p s hga hgb
      refine ⟨p.flatMap (fun q => J q.2 []), s.flatMap (fun q => J q.2 []), ?_⟩
      rw [show joinGroups J (p₀ :: ga) [] = (p₀ :: ga).flatMap (fun q => J q.2 [])
        from by simp [joinGroups]]
      rw [hga, List.flatMap_append, List.flatMap_cons]
  | case3 p₀ ga q gb hlt ih =>
      intro p s hga hgb
      cases p with
      | nil =>
          simp only [List.nil_append, List.cons.injEq] at hga
          obtain ⟨hp₀, hga'⟩ := hga
          subst hp₀
          subst hga'
          exact ⟨[], joinGroups J ga (q :: gb), by simp [joinGroups, hlt]⟩
      | cons p₁ p' =>
          simp only [List.cons_append, List.cons.injEq] at hga
          obtain ⟨hp₀, hga'⟩ := hga
          subst hp₀
          obtain ⟨X, Y, hXY⟩ := ih p' s hga' hgb
          exact ⟨J p₀.2 [] ++ X, Y, by
            simp [joinGroups, hlt, hXY, List.append_assoc]⟩
  | case4 p₀ ga q gb hlt₁ hlt₂ ih =>
      intro p s hga hgb
      have hgb' : t ∉ gb.map Prod.fst := by
        intro h
        exact hgb (by simp [h])
      obtain ⟨X, Y, hXY⟩ := ih p s hga hgb'
      exact ⟨J [] q.2 ++ X, Y, by
        simp [joinGroups, hlt₁, hlt₂, hXY, List.append_assoc]⟩
  | case5 p₀ ga q gb hlt₁ hlt₂ ih =>
      intro p s hga hgb
      have heq : p₀.1 = q.1 :=
        eq_of_not_tupleLt optLt optLt_conn p₀.1 q.1 (by simpa using hlt₁) (by simpa using hlt₂)
      cases p with
      | nil =>
          simp only [List.nil_append, List.cons.injEq] at hga
          obtain ⟨hp₀, hga'⟩ := hga
          have : t ∈ (q :: gb).map Prod.fst := by
            have : q.1 = t := by rw [← heq, hp₀]
            simp [← this]
          exact absurd this hgb
      | cons p₁ p' =>
          simp only [List.cons_append, List.cons.injEq] at hga
          obtain ⟨hp₀, hga'⟩ := hga
          subst hp₀
          have hgb' : t ∉ gb.map Prod.fst := by
            intro h
            exact hgb (by simp [h])
          obtain ⟨X, Y, hXY⟩ := ih p' s hga' hgb'
          exact ⟨J p₀.2 q.2 ++ X, Y, by
            simp [joinGroups, hlt₁, hlt₂, hXY, List.append_assoc]⟩

/-- Mirror image of `joinGroups_block_left` for a key present only on the
right stream. -/
theorem joinGroups_block_right (J : List (Row V) → List (Row V) → List (Row V))
    (t : List (Option V)) (g : List (Row V))
    (ga gb : List (List (Option V) × List (Row V))) :
    ∀ p s, gb = p ++ (t, g) :: s → t ∉ ga.map Prod.fst →
      ∃ X Y, joinGroups J ga gb = X ++ (J [] g ++ Y) := by
  induction ga, gb using joinGroups.induct J with
  | case1 gb =>
      intro p s hgb hga
      refine ⟨p.flatMap (fun q => J [] q.2), s.flatMap (fun q => J [] q.2), ?_⟩
      rw [show joinGroups J [] gb = gb.flatMap (fun q => J [] q.2) from by simp [joinGroups]]
      rw [hgb, List.flatMap_append, List.flatMap_cons]
  | case2 p₀ ga =>
      intro p s hgb hga
      exact absurd hgb.symm (by simp)
  | case3 p₀ ga q gb hlt ih =>
      intro p s hgb hga
      have hga' : t ∉ ga.map Prod.fst := by
        intro h
        exact hga (by simp [h])
      obtain ⟨X, Y, hXY⟩ := ih p s hgb hga'
      exact ⟨J p₀.2 [] ++ X, Y, by
        simp [joinGroups, hlt, hXY, List.append_assoc]⟩
  | case4 p₀ ga q gb hlt₁ hlt₂ ih =>
      intro p s hgb hga
      cases p with
      | nil =>
          simp only [List.nil_append, List.cons.injEq] at hgb
          obtain ⟨hq, hgb'⟩ := hgb
          subst hq
          subst hgb'
          exact ⟨[], joinGroups J (p₀ :: ga) gb, by simp [joinGroups, hlt₁, hlt₂]⟩
      | cons p₁ p' =>
          simp only [List.cons_append, List.cons.injEq] at hgb
          obtain ⟨hq, hgb'⟩ := hgb
          subst hq
          obtain ⟨X, Y, hXY⟩ := ih p' s hgb' hga
          exact ⟨J [] q.2 ++ X, Y, by
            simp [joinGroups, hlt₁, hlt₂, hXY, List.append_assoc]⟩
  | case5 p₀ ga q gb hlt₁ hlt₂ ih =>
      intro p s hgb hga
      have heq : p₀.1 = q.1 :=
        eq_of_not_tupleLt optLt optLt_conn p₀.1 q.1 (by simpa using hlt₁) (by simpa using hlt₂)
      cases p with
      | nil =>
          simp only [List.nil_append, List.cons.injEq] at hgb
          obtain ⟨hq, hgb'⟩ := hgb
          have : t ∈ (p₀ :: ga).map Prod.fst := by
            have : p₀.1 = t := by rw [heq, hq]
            simp [← this]
          exact absurd this hga
      | cons p₁ p' =>
          simp only [List.cons_append, List.cons.injEq] at hgb
          obtain ⟨hq, hgb'⟩ := hgb
          subst hq
          have hga' : t ∉ ga.map Prod.fst := by
            intro h
            exact hga (by simp [h])
          obtain ⟨X, Y, hXY⟩ := ih p' s hgb' hga'
          exact ⟨J p₀.2 q.2 ++ X, Y, by
            simp [joinGroups, hlt₁, hlt₂, hXY, List.append_assoc]⟩

end JoinMerge

section JoinerLemmas

variable {V : Type}

theorem orEmptyRow_of_ne_nil {l : List (Row V)} (h : l ≠ []) : orEmptyRow l = l := by
  cases l with
  | nil => exact absurd rfl h
  | cons a l => rfl

theorem flatMap_joinTwoRows_nil_right (sa sb : String) (keys : List String) :
    ∀ g : List (Row V), (∀ r ∈ g, (r.map Prod.fst).Nodup) →
      g.flatMap (fun a => [joinTwoRows sa sb keys a []]) = g := by
  intro g
  induction g with
  | nil => intro _; rfl
  | cons r g ih =>
      intro h
      simp only [List.flatMap_cons, List.singleton_append]
      rw [joinTwoRows_nil_right sa sb keys r (h r (List.mem_cons_self _ _)),
        ih (fun x hx => h x (List.mem_cons_of_mem _ hx))]

theorem map_joinTwoRows_nil_left (sa sb : String) (keys : List String) :
    ∀ g : List (Row V), (∀ r ∈ g, (r.map Prod.fst).Nodup) →
      g.map (fun b => joinTwoRows sa sb keys [] b) = g := by
  intro g
  induction g with
  | nil => intro _; rfl
  | cons r g ih =>
      intro h
      simp only [List.map_cons]
      rw [joinTwoRows_nil_left sa sb keys r (h r (List.mem_cons_self _ _)),
        ih (fun x hx => h x (List.mem_cons_of_mem _ hx))]

end JoinerLemmas

/-- C2 (counterexample): on the matched singleton groups left `{k:1, x:10}`
and right `{k:1, x:20}` with join key `k` and the default suffixes, the
claimed composition — left row's columns then right row's, `_1` on the left
row's overlapping value — would give `{k:1, x_1:10, x_2:20}`, but
`RightJoiner` passes the right row as the first argument of
`_join_two_rows` and emits `{k:1, x_1:20, x_2:10}`. -/
theorem rightJoiner_swaps_composition :
    rightJoiner "_1" "_2" ["k"]
        [[("k", Value.int 1), ("x", Value.int 10)]]
        [[("k", Value.int 1), ("x", Value.int 20)]] ≠
      [[("k", Value.int 1), ("x_1", Value.int 10), ("x_2", Value.int 20)]] ∧
    rightJoiner "_1" "_2" ["k"]
        [[("k", Value.int 1), ("x", Value.int 10)]]
        [[("k", Value.int 1), ("x", Value.int 20)]] =
      [[("k", Value.int 1), ("x_1", Value.int 20), ("x_2", Value.int 10)]] := by
  constructor
  · decide
  · decide

/-- C2 (amended): on a key matched by non-empty groups, `InnerJoiner`,
`LeftJoiner` and `OuterJoiner` emit `for each left row, for each right row`,
each row composed by `_join_two_rows(keys, left, right)`, which equals the
spec's composition (left columns then right columns, overlap renamed with
`suffix_a` on the left value and `suffix_b` on the right, one-sided columns
unchanged, join keys once) whenever the rows' columns are duplicate-free, the
composed column names do not collide, and the two rows agree on the join
keys; `RightJoiner` instead emits `for each right row, for each left row`
with the right row as the first (`suffix_a`) argument of the composition. -/
theorem joiners_matched_group {V : Type} (sa sb : String) (keys : List String)
    (ra rb : Row V) (ga gb : List (Row V))
    (h1 : (ra.map Prod.fst).Nodup) (h2 : (rb.map Prod.fst).Nodup)
    (h3 : ((specJoinRow sa sb keys ra rb).map Prod.fst).Nodup)
    (h4 : ∀ k ∈ keys, hasKey ra k = true → hasKey rb k = true →
      getVal ra k = getVal rb k)
    (hga : ga ≠ []) (hgb : gb ≠ []) :
    joinTwoRows sa sb keys ra rb = specJoinRow sa sb keys ra rb ∧
    innerJoiner sa sb keys ga gb =
      ga.flatMap (fun a => gb.map (fun b => joinTwoRows sa sb keys a b)) ∧
    leftJoiner sa sb keys ga gb =
      ga.flatMap (fun a => gb.map (fun b => joinTwoRows sa sb keys a b)) ∧
    outerJoiner sa sb keys ga gb =
      ga.flatMap (fun a => gb.map (fun b => joinTwoRows sa sb keys a b)) ∧
    rightJoiner sa sb keys ga gb =
      gb.flatMap (fun b => ga.map (fun a => joinTwoRows sa sb keys b a)) := by
  refine ⟨joinTwoRows_eq_spec sa sb keys ra rb h1 h2 h3 h4, rfl, ?_, ?_, ?_⟩
  · unfold leftJoiner
    rw [orEmptyRow_of_ne_nil hgb]
  · unfold outerJoiner
    rw [orEmptyRow_of_ne_nil hga, orEmptyRow_of_ne_nil hgb]
  · unfold rightJoiner
    rw [orEmptyRow_of_ne_nil hga]

/-- Witness for C2 (amended) on concrete matched groups. -/
theorem joiners_matched_group_witness :
    joinTwoRows "_1" "_2" ["k"]
        [("k", Value.int 1), ("x", Value.int 10), ("u", Value.int 5)]
        [("k", Value.int 1), ("x", Value.int 20), ("w", Value.int 7)] =
      specJoinRow "_1" "_2" ["k"]
        [("k", Value.int 1), ("x", Value.int 10), ("u", Value.int 5)]
        [("k", Value.int 1), ("x", Value.int 20), ("w", Value.int 7)] ∧
    innerJoiner "_1" "_2" ["k"]
        [[("k", Value.int 1), ("x", Value.int 10), ("u", Value.int 5)]]
        [[("k", Value.int 1), ("x", Value.int 20), ("w", Value.int 7)]] =
      [[("k", Value.int 1), ("x", Value.int 10), ("u", Value.int 5)]].flatMap
        (fun a => [[("k", Value.int 1), ("x", Value.int 20), ("w", Value.int 7)]].map
          (fun b => joinTwoRows "_1" "_2" ["k"] a b)) ∧
    leftJoiner "_1" "_2" ["k"]
        [[("k", Value.int 1), ("x", Value.int 10), ("u", Value.int 5)]]
        [[("k", Value.int 1), ("x", Value.int 20), ("w", Value.int 7)]] =
      [[("k", Value.int 1), ("x", Value.int 10), ("u", Value.int 5)]].flatMap
        (fun a => [[("k", Value.int 1), ("x", Value.int 20), ("w", Value.int 7)]].map
          (fun b => joinTwoRows "_1" "_2" ["k"] a b)) ∧
    outerJoiner "_1" "_2" ["k"]
        [[("k", Value.int 1), ("x", Value.int 10), ("u", Value.int 5)]]
        [[("k", Value.int 1), ("x", Value.int 20), ("w", Value.int 7)]] =
      [[("k", Value.int 1), ("x", Value.int 10), ("u", Value.int 5)]].flatMap
        (fun a => [[("k", Value.int 1), ("x", Value.int 20), ("w", Value.int 7)]].map
          (fun b => joinTwoRows "_1" "_2" ["k"] a b)) ∧
    rightJoiner "_1" "_2" ["k"]
        [[("k", Value.int 1), ("x", Value.int 10), ("u", Value.int 5)]]
        [[("k", Value.int 1), ("x", Value.int 20), ("w", Value.int 7)]] =
      [[("k", Value.int 1), ("x", Value.int 20), ("w", Value.int 7)]].flatMap
        (fun b => [[("k", Value.int 1), ("x", Value.int 10), ("u", Value.int 5)]].map
          (fun a => joinTwoRows "_1" "_2" ["k"] b a)) :=
  joiners_matched_group "_1" "_2" ["k"]
    [("k", Value.int 1), ("x", Value.int 10), ("u", Value.int 5)]
    [("k", Value.int 1), ("x", Value.int 20), ("w", Value.int 7)]
    [[("k", Value.int 1), ("x", Value.int 10), ("u", Value.int 5)]]
    [[("k", Value.int 1), ("x", Value.int 20), ("w", Value.int 7)]]
    (by decide) (by decide) (by decide) (by decide) (by decide) (by decide)

/-- C4: a join key present on exactly one side, say with group `g` of size
`|g|`: the merge emits one contiguous block for it, produced by the joiner on
`(g, ∅)` (or `(∅, g)`), and on such arguments `InnerJoiner` emits nothing,
`LeftJoiner` emits the `|g|` left rows (nothing when the key is only on the
right), `RightJoiner` emits the `|g|` right rows (nothing when only on the
left), `OuterJoiner` emits the `|g|` rows of whichever side has the key; the
emitted rows are exactly that side's rows, so they carry only that side's
columns. -/
theorem join_one_sided_key {V : Type} [LinearOrder V] (sa sb : String)
    (keys : List String) (t : List (Option V)) (g : List (Row V)) (hg : g ≠ [])
    (hnd : ∀ r ∈ g, (r.map Prod.fst).Nodup) :
    innerJoiner sa sb keys g [] = [] ∧
    innerJoiner sa sb keys [] g = [] ∧
    leftJoiner sa sb keys g [] = g ∧
    leftJoiner sa sb keys [] g = [] ∧
    rightJoiner sa sb keys g [] = [] ∧
    rightJoiner sa sb keys [] g = g ∧
    outerJoiner sa sb keys g [] = g ∧
    outerJoiner sa sb keys [] g = g ∧
    (∀ (J : List (Row V) → List (Row V) → List (Row V)) (A B : List (Row V)) p s,
      pyGroupBy (sortKeyOf keys) A = p ++ (t, g) :: s →
      t ∉ (pyGroupBy (sortKeyOf keys) B).map Prod.fst →
      ∃ X Y, joinOp J keys A B = X ++ (J g [] ++ Y)) ∧
    (∀ (J : List (Row V) → List (Row V) → List (Row V)) (A B : List (Row V)) p s,
      pyGroupBy (sortKeyOf keys) B = p ++ (t, g) :: s →
      t ∉ (pyGroupBy (sortKeyOf keys) A).map Prod.fst →
      ∃ X Y, joinOp J keys A B = X ++ (J [] g ++ Y)) := by
  refine ⟨?_, ?_, ?_, ?_, ?_, ?_, ?_, ?_, ?_, ?_⟩
  · simp [innerJoiner]
  · simp [innerJoiner]
  · unfold leftJoiner
    rw [show orEmptyRow ([] : List (Row V)) = [[]] from rfl]
    simp only [List.map_cons, List.map_nil]
    exact flatMap_joinTwoRows_nil_right sa sb keys g hnd
  · simp [leftJoiner]
  · simp [rightJoiner]
  · unfold rightJoiner
    rw [show orEmptyRow ([] : List (Row V)) = [[]] from rfl]
    simp only [List.map_cons, List.map_nil]
    exact flatMap_joinTwoRows_nil_right sa sb keys g hnd
  · unfold outerJoiner
    rw [orEmptyRow_of_ne_nil hg, show orEmptyRow ([] : List (Row V)) = [[]] from rfl]
    simp only [List.map_cons, List.map_nil]
    exact flatMap_joinTwoRows_nil_right sa sb keys g hnd
  · unfold outerJoiner
    rw [orEmptyRow_of_ne_nil hg, show orEmptyRow ([] : List (Row V)) = [[]] from rfl]
    simp only [List.flatMap_cons, List.flatMap_nil, List.append_nil]
    exact map_joinTwoRows_nil_left sa sb keys g hnd
  · intro J A B p s hA hB
    exact joinGroups_block_left J t g _ _ p s hA hB
  · intro J A B p s hB hA
    exact joinGroups_block_right J t g _ _ p s hB hA

/-- Witness for C4 with a singleton group over `V := Int`. -/
theorem join_one_sided_key_witness :
    innerJoiner "_1" "_2" ["k"] [[("k", (1 : Int))]] [] = [] ∧
    leftJoiner "_1" "_2" ["k"] [[("k", (1 : Int))]] [] = [[("k", (1 : Int))]] ∧
    rightJoiner "_1" "_2" ["k"] [] [[("k", (1 : Int))]] = [[("k", (1 : Int))]] ∧
    outerJoiner "_1" "_2" ["k"] [[("k", (1 : Int))]] [] = [[("k", (1 : Int))]] ∧
    (∃ X Y, joinOp (innerJoiner "_1" "_2" ["k"]) ["k"] [[("k", (1 : Int))]] [] =
      X ++ (innerJoiner "_1" "_2" ["k"] [[("k", (1 : Int))]] [] ++ Y)) := by
  have h := join_one_sided_key (V := Int) "_1" "_2" ["k"] [some (1 : Int)]
    [[("k", (1 : Int))]] (by decide) (by decide)
  exact ⟨h.1, h.2.2.1, h.2.2.2.2.2.1, h.2.2.2.2.2.2.1,
    h.2.2.2.2.2.2.2.2.1 (innerJoiner "_1" "_2" ["k"]) [[("k", (1 : Int))]] [] [] []
      (by decide) (by decide)⟩

/-! ## Map and the mapper library (src/operations/map.py)

`Map.__call__` yields, for each input row, every row its mapper produces.
`Project` keeps the listed columns (null for a missing one); `Split` splits
`row[column]` with the compiled regex `\\W+` — its `separator` parameter is
stored but never read. -/

section MapSection

/-- Model of `Map.__call__`: `for row in rows: yield from mapper(row)`. -/
def mapOp {V : Type} (m : Row V → List (Row V)) (rows : List (Row V)) : List (Row V) :=
  rows.flatMap m

/-- Model of `Project.__call__`'s dict comprehension
`{column: deepcopy(row[column]) if column in row else None for column in columns}`. -/
def projectRow (columns : List String) (row : Row Value) : Row Value :=
  columns.foldl (fun acc c => setVal acc c ((getVal row c).getD Value.null)) []

/-- Model of `Project` as a mapper: yields exactly one row. -/
def projectMapper (columns : List String) (row : Row Value) : List (Row Value) :=
  [projectRow columns row]

theorem getVal_projectRow (columns : List String) (row : Row Value) (c : String) :
    getVal (projectRow columns row) c =
      if c ∈ columns then some ((getVal row c).getD Value.null) else none := by
  rw [projectRow, getVal_foldl_setVal (fun c => (getVal row c).getD Value.null) columns [] c]
  rfl

/-- C6 (amended, duplicate-free column list): `Project(cols)` emits exactly
one row, equal to `cols` in the requested order with each column mapped to
its input value, or to null when absent; no other columns appear. -/
theorem projectRow_spec (columns : List String) (row : Row Value)
    (hnd : columns.Nodup) :
    projectMapper columns row = [projectRow columns row] ∧
    projectRow columns row =
      columns.map (fun c => (c, (getVal row c).getD Value.null)) := by
  refine ⟨rfl, ?_⟩
  have h := foldl_setVal_split (V := Value) id (fun _ => false)
    (columns.map (fun c => (c, (getVal row c).getD Value.null))) []
    (by intro p _ hc; simp at hc)
    (by simpa [Function.comp_def] using hnd)
    (by intro p _ _; rfl)
  rw [projectRow, ← List.foldl_map (fun c => (c, (getVal row c).getD Value.null))
    (fun a p => setVal a p.1 p.2) columns []]
  simpa using h

/-- Witness for C6 (amended). -/
theorem projectRow_spec_witness :
    projectMapper ["a", "b"] [("b", Value.int 2)] =
      [projectRow ["a", "b"] [("b", Value.int 2)]] ∧
    projectRow ["a", "b"] [("b", Value.int 2)] =
      ["a", "b"].map (fun c =>
        (c, (getVal [("b", Value.int 2)] c).getD Value.null)) :=
  projectRow_spec ["a", "b"] [("b", Value.int 2)] (by decide)

/-- C6 (counterexample): with the duplicated request `cols = ["a","a"]` the
dict comprehension collapses the two occurrences, so the emitted row's
columns are `["a"]`, not `cols` itself. -/
theorem projectRow_dup_columns :
    (projectRow ["a", "a"] ([] : Row Value)).map Prod.fst ≠ ["a", "a"] := by
  decide

theorem foldl_setVal_congr (v w : String → Value) :
    ∀ (cols : List String) (acc : Row Value), (∀ c ∈ cols, v c = w c) →
      cols.foldl (fun a k => setVal a k (v k)) acc =
        cols.foldl (fun a k => setVal a k (w k)) acc := by
  intro cols
  induction cols with
  | nil => intro acc _; rfl
  | cons k cols ih =>
      intro acc h
      simp only [List.foldl_cons]
      rw [h k (List.mem_cons_self _ _)]
      exact ih _ (fun c hc => h c (List.mem_cons_of_mem _ hc))

theorem projectRow_idem_row (columns : List String) (row : Row Value) :
    projectRow columns (projectRow columns row) = projectRow columns row := by
  unfold projectRow
  apply foldl_setVal_congr
  intro c hc
  rw [show (columns.foldl
      (fun acc c => setVal acc c ((getVal row c).getD Value.null)) []) =
    projectRow columns row from rfl]
  rw [getVal_projectRow, if_pos hc]
  rfl

/-- C8: `Project(cols)` is idempotent — re-projecting the single row it
produces returns that row, and composing the two `Map(Project(cols))` passes
over any stream equals a single pass. -/
theorem project_idempotent (columns : List String) (row : Row Value)
    (rows : List (Row Value)) :
    projectRow columns (projectRow columns row) = projectRow columns row ∧
    projectMapper columns (projectRow columns row) = [projectRow columns row] ∧
    mapOp (projectMapper columns) (mapOp (projectMapper columns) rows) =
      mapOp (projectMapper columns) rows := by
  refine ⟨projectRow_idem_row columns row, ?_, ?_⟩
  · simp [projectMapper, projectRow_idem_row]
  · unfold mapOp
    induction rows with
    | nil => rfl
    | cons r rows ih =>
        simp only [List.flatMap_cons, List.flatMap_append, ih]
        simp [projectMapper, projectRow_idem_row]

/-- Python word characters (`\\w`) over the ASCII range: `[A-Za-z0-9_]` (the source compiles
the pattern over `str`, where `\\w` additionally matches non-ASCII word
characters; the embedding models the ASCII alphabet). -/
def isWordChar (c : Char) : Bool :=
  c.isAlpha || c.isDigit || c = '_'

/-- Model of `re.split` with the pattern `\\W+`, walking the characters: `some acc` accumulates the
current (reversed) token, `none` skips a separator run; empty edge pieces
are produced exactly as `re.split` does. -/
def splitGo : List Char → Option (List Char) → List String
  | [], some acc => [String.mk acc.reverse]
  | [], none => [""]
  | c :: cs, some acc =>
      if isWordChar c then splitGo cs (some (c :: acc))
      else String.mk acc.reverse :: splitGo cs none
  | c :: cs, none =>
      if isWordChar c then splitGo cs (some [c]) else splitGo cs none

/-- Model of `re.split` with the pattern `\\W+` on a whole string. -/
def splitWords (s : String) : List String :=
  splitGo s.data (some [])

/-- Model of `Split.__init__`: it stores `column` and the (unused) `separator`;
`self._filter` is always compiled from `\\W+`. -/
structure SplitMapper where
  column : String
  separator : Option String

/-- Model of `Split.__call__`: split `row[column]` and yield one copy of the row per
token with `column` replaced by the token (`none` models the `KeyError` /
`TypeError` the source raises when the column is absent or not a string). -/
def splitCall (m : SplitMapper) (row : Row Value) : Option (List (Row Value)) :=
  match getVal row m.column with
  | some (Value.str s) =>
      some ((splitWords s).map (fun w => setVal row m.column (Value.str w)))
  | _ => none

/-- C10: `Split(col, sep)` never reads `sep` — any two separator arguments
produce identical output — and always splits `row[col]` on the regex `\\W+`,
emitting one row per token with `col` replaced by that token. -/
theorem split_ignores_separator (col : String) (sep₁ sep₂ : Option String)
    (row : Row Value) :
    splitCall ⟨col, sep₁⟩ row = splitCall ⟨col, sep₂⟩ row ∧
    ∀ s, getVal row col = some (Value.str s) →
      splitCall ⟨col, sep₁⟩ row =
        some ((splitWords s).map (fun w => setVal row col (Value.str w))) := by
  refine ⟨rfl, ?_⟩
  intro s hs
  simp [splitCall, hs]

/-- Witness for C10 on the row `{text: "a, b."}` with separators `None` and
`","`: both runs yield `["a","b",""]`-tokenised copies of the row. -/
theorem split_ignores_separator_witness :
    splitCall ⟨"text", none⟩ [("text", Value.str "a, b.")] =
      splitCall ⟨"text", some ","⟩ [("text", Value.str "a, b.")] ∧
    splitCall ⟨"text", none⟩ [("text", Value.str "a, b.")] =
      some ((splitWords "a, b.").map
        (fun w => setVal [("text", Value.str "a, b.")] "text" (Value.str w))) := by
  have h := split_ignores_separator "text" none (some ",") [("text", Value.str "a, b.")]
  exact ⟨h.1, h.2 "a, b." rfl⟩

/-- The tokenisation at the witness input, evaluated. -/
theorem splitWords_example : splitWords "a, b." = ["a", "b", ""] := by decide

end MapSection

/-! ## Reduce and `Count` (src/operations/reduce.py)

`Reduce.__call__` groups the (pre-sorted) stream with `groupby` on the key
tuple and feeds each contiguous group to the reducer, passing
`tuple(self.keys)` — the key *names* — as `group_key`.  `Count.__call__`
starts from `{column: 0}`, copies the group-key columns out of the first row
(the guard `group_key[0] not in new_row` only holds before the first
update), increments per row, and yields once. -/

section ReduceSection

/-- Model of `Reduce.__call__`. -/
def reduceOp (red : List String → List (Row Value) → List (Row Value))
    (keys : List String) (rows : List (Row Value)) : List (Row Value) :=
  (pyGroupBy (fun r => keys.map (fun k => getVal r k)) rows).flatMap
    (fun g => red keys g.2)

/-- Model of `new_row.update({key: deepcopy(row[key]) for key in group_key})`
(`getD Value.null` stands where the source would raise `KeyError` for a
missing key; the claims assume presence). -/
def countUpdate (K : List String) (row : Row Value) (nr : Row Value) : Row Value :=
  (K.foldl (fun d k => setVal d k ((getVal row k).getD Value.null)) []).foldl
    (fun a p => setVal a p.1 p.2) nr

/-- Model of `new_row[self.column] += 1` (always an int under the claims; on a
non-int the source raises `TypeError`, modelled as the identity). -/
def addOneInt (nr : Row Value) (col : String) : Row Value :=
  match getVal nr col with
  | some (Value.int n) => setVal nr col (Value.int (n + 1))
  | _ => nr

/-- One iteration of `Count.__call__`'s loop. -/
def countStep (col : String) (K : List String) (nr : Row Value) (row : Row Value) :
    Row Value :=
  match K with
  | [] => addOneInt nr col
  | k₀ :: _ => addOneInt (if hasKey nr k₀ then nr else countUpdate K row nr) col

/-- Model of `Count.__call__`. -/
def countCall (col : String) (K : List String) (g : List (Row Value)) :
    List (Row Value) :=
  [g.foldl (countStep col K) [(col, Value.int 0)]]

theorem flatMap_singleton_eq_map {α β : Type} (f : α → β) :
    ∀ l : List α, l.flatMap (fun x => [f x]) = l.map f := by
  intro l
  induction l with
  | nil => rfl
  | cons x l ih => simp [List.flatMap_cons, ih]

/-- C1 (counterexample): on the empty input stream `groupby` yields no
groups, so the pipeline `.reduce(Count('n'), [])` emits no rows at all —
not the claimed single row `{'n': 0}`. -/
theorem reduce_count_empty_stream :
    reduceOp (countCall "n") [] ([] : List (Row Value)) = [] ∧
    reduceOp (countCall "n") [] ([] : List (Row Value)) ≠ [[("n", Value.int 0)]] := by
  constructor
  · rfl
  · decide

theorem pyGroupBy_const_key {α K : Type} [DecidableEq K] (k : K) :
    ∀ l : List α, l ≠ [] → pyGroupBy (fun _ => k) l = [(k, l)] := by
  intro l
  induction l with
  | nil => intro h; exact absurd rfl h
  | cons x xs ih =>
      intro _
      cases xs with
      | nil => rfl
      | cons y ys =>
          have h := ih (by simp)
          rw [pyGroupBy, h]
          simp

theorem countFold_no_keys (col : String) :
    ∀ (g : List (Row Value)) (n : Int),
      g.foldl (countStep col []) [(col, Value.int n)] =
        [(col, Value.int (n + g.length))] := by
  intro g
  induction g with
  | nil => intro n; simp
  | cons r g ih =>
      intro n
      have hstep : countStep col [] [(col, Value.int n)] r =
          [(col, Value.int (n + 1))] := by
        simp [countStep, addOneInt, getVal, setVal]
      rw [List.foldl_cons, hstep, ih]
      congr 2
      congr 1
      simp only [List.length_cons]
      push_cast
      ring

/-- C1 (amended): with the empty grouping-key list, the empty input yields
no output rows, and every non-empty input forms one single group, for which
`Count('n')` emits exactly the row `{'n': number of input rows}`. -/
theorem reduce_count_empty_keys (col : String) (rows : List (Row Value))
    (h : rows ≠ []) :
    reduceOp (countCall col) [] rows = [[(col, Value.int rows.length)]] ∧
    reduceOp (countCall col) [] ([] : List (Row Value)) = [] := by
  refine ⟨?_, rfl⟩
  unfold reduceOp
  rw [show (fun (r : Row Value) => ([] : List String).map (fun k => getVal r k)) =
    (fun _ => ([] : List (Option Value))) from rfl]
  rw [pyGroupBy_const_key ([] : List (Option Value)) rows h]
  simp only [List.flatMap_cons, List.flatMap_nil, List.append_nil, countCall]
  rw [countFold_no_keys]
  simp

/-- Witness for C1 (amended) on a one-row stream. -/
theorem reduce_count_empty_keys_witness :
    reduceOp (countCall "n") [] [[("a", Value.int 5)]] = [[("n", Value.int 1)]] ∧
    reduceOp (countCall "n") [] ([] : List (Row Value)) = [] := by
  have h := reduce_count_empty_keys "n" [[("a", Value.int 5)]] (by decide)
  exact ⟨by simpa using h.1, h.2⟩

theorem foldl_setVal_keys_nodup (v : String → Value) :
    ∀ (K : List String) (acc : Row Value), ((acc.map Prod.fst).Nodup) →
      (((K.foldl (fun d k => setVal d k (v k)) acc)).map Prod.fst).Nodup := by
  intro K
  induction K with
  | nil => intro acc h; exact h
  | cons k K ih =>
      intro acc h
      simp only [List.foldl_cons]
      exact ih _ (setVal_keys_nodup h k (v k))

/-- The state of `Count.__call__` after its first loop iteration. -/
theorem countStep_first (col : String) (K : List String) (hcol : col ∉ K)
    (r₀ : Row Value) (hpres : ∀ k ∈ K, hasKey r₀ k = true) :
    getVal (countStep col K [(col, Value.int 0)] r₀) col = some (Value.int 1) ∧
    (∀ k ∈ K, getVal (countStep col K [(col, Value.int 0)] r₀) k = getVal r₀ k) ∧
    (∀ k₀, K.head? = some k₀ →
      hasKey (countStep col K [(col, Value.int 0)] r₀) k₀ = true) := by
  cases K with
  | nil =>
      refine ⟨?_, by simp, by simp⟩
      simp [countStep, addOneInt, getVal, setVal]
  | cons k₀ K' =>
      have hk₀mem : k₀ ∈ k₀ :: K' := List.mem_cons_self _ _
      have hne₀ : col ≠ k₀ := fun he => hcol (he ▸ hk₀mem)
      have hmiss : hasKey [(col, Value.int 0)] k₀ = false := by
        simp [hasKey, getVal, hne₀]
      set v : String → Value := fun k => (getVal r₀ k).getD Value.null with hv
      set D : Row Value :=
        (k₀ :: K').foldl (fun d k => setVal d k (v k)) [] with hD
      have hDnodup : (D.map Prod.fst).Nodup := by
        rw [hD]
        exact foldl_setVal_keys_nodup v (k₀ :: K') [] (by simp)
      have hDget : ∀ x, getVal D x =
          if x ∈ k₀ :: K' then some (v x) else none := by
        intro x
        rw [hD, getVal_foldl_setVal v (k₀ :: K') [] x]
        rfl
      have hnr₁ : countUpdate (k₀ :: K') r₀ [(col, Value.int 0)] =
          D.foldl (fun a p => setVal a p.1 p.2) [(col, Value.int 0)] := rfl
      have hnr₁get : ∀ x,
          getVal (countUpdate (k₀ :: K') r₀ [(col, Value.int 0)]) x =
            ((getVal D x).or (getVal [(col, Value.int 0)] x)) := by
        intro x
        rw [hnr₁]
        exact getVal_foldl_pairs D hDnodup [(col, Value.int 0)] x
      have hgetcol : getVal (countUpdate (k₀ :: K') r₀ [(col, Value.int 0)]) col =
          some (Value.int 0) := by
        rw [hnr₁get col, hDget col, if_neg hcol]
        simp [getVal, Option.or]
      have hgetK : ∀ k ∈ k₀ :: K',
          getVal (countUpdate (k₀ :: K') r₀ [(col, Value.int 0)]) k = getVal r₀ k := by
        intro k hk
        rw [hnr₁get k, hDget k, if_pos hk]
        obtain ⟨w, hw⟩ := Option.isSome_iff_exists.mp (by
          have := hpres k hk
          simpa [hasKey] using this)
        simp [hv, hw, Option.or]
      have hstep : countStep col (k₀ :: K') [(col, Value.int 0)] r₀ =
          addOneInt (countUpdate (k₀ :: K') r₀ [(col, Value.int 0)]) col := by
        simp [countStep, hmiss]
      rw [hstep]
      have haddone : addOneInt (countUpdate (k₀ :: K') r₀ [(col, Value.int 0)]) col =
          setVal (countUpdate (k₀ :: K') r₀ [(col, Value.int 0)]) col (Value.int 1) := by
        rw [addOneInt, hgetcol]
        rfl
      rw [haddone]
      refine ⟨by simp [getVal_setVal], ?_, ?_⟩
      · intro k hk
        have hne : k ≠ col := fun he => hcol (he ▸ hk)
        rw [getVal_setVal, if_neg hne]
        exact hgetK k hk
      · intro kh hkh
        simp only [List.head?_cons, Option.some.injEq] at hkh
        subst hkh
        rw [hasKey, getVal_setVal, if_neg (Ne.symm hne₀)]
        have := hgetK k₀ hk₀mem
        rw [this]
        simpa [hasKey] using hpres k₀ hk₀mem

/-- Invariant of `Count.__call__`'s loop over the rest of a group: the first
group key stays present, so the update never fires again and only the
counter changes. -/
theorem countFold_inv (col : String) (K : List String) (hcol : col ∉ K)
    (r₀ : Row Value) :
    ∀ (tl : List (Row Value)) (nr : Row Value) (m : Int),
      getVal nr col = some (Value.int m) →
      (∀ k ∈ K, getVal nr k = getVal r₀ k) →
      (∀ k₀, K.head? = some k₀ → hasKey nr k₀ = true) →
      getVal (tl.foldl (countStep col K) nr) col =
        some (Value.int (m + tl.length)) ∧
      ∀ k ∈ K, getVal (tl.foldl (countStep col K) nr) k = getVal r₀ k := by
  intro tl
  induction tl with
  | nil =>
      intro nr m h1 h2 h3
      exact ⟨by simpa using h1, h2⟩
  | cons y tl ih =>
      intro nr m h1 h2 h3
      have hstep : countStep col K nr y = setVal nr col (Value.int (m + 1)) := by
        cases K with
        | nil => simp [countStep, addOneInt, h1]
        | cons k₀ K' =>
            have hk₀ : hasKey nr k₀ = true := h3 k₀ rfl
            simp [countStep, hk₀, addOneInt, h1]
      rw [List.foldl_cons, hstep]
      have h1' : getVal (setVal nr col (Value.int (m + 1))) col =
          some (Value.int (m + 1)) := by
        simp [getVal_setVal]
      have h2' : ∀ k ∈ K, getVal (setVal nr col (Value.int (m + 1))) k =
          getVal r₀ k := by
        intro k hk
        have hne : k ≠ col := fun he => hcol (he ▸ hk)
        rw [getVal_setVal, if_neg hne]
        exact h2 k hk
      have h3' : ∀ k₀, K.head? = some k₀ →
          hasKey (setVal nr col (Value.int (m + 1))) k₀ = true := by
        intro k₀ hk₀
        have hk : k₀ ∈ K := by
          cases K with
          | nil => simp at hk₀
          | cons a l =>
              simp only [List.head?_cons, Option.some.injEq] at hk₀
              subst hk₀
              exact List.mem_cons_self _ _
        have hne : k₀ ≠ col := fun he => hcol (he ▸ hk)
        rw [hasKey, getVal_setVal, if_neg hne]
        exact h3 k₀ hk₀
      obtain ⟨ha, hb⟩ := ih _ (m + 1) h1' h2' h3'
      refine ⟨?_, hb⟩
      rw [ha]
      congr 2
      simp only [List.length_cons]
      push_cast
      ring

/-- Running `Count.__call__` over one whole (non-empty) group. -/
theorem countFold_run (col : String) (K : List String) (hcol : col ∉ K)
    (r₀ : Row Value) (tl : List (Row Value))
    (hpres : ∀ k ∈ K, hasKey r₀ k = true) :
    getVal ((r₀ :: tl).foldl (countStep col K) [(col, Value.int 0)]) col =
      some (Value.int (tl.length + 1)) ∧
    ∀ k ∈ K, getVal ((r₀ :: tl).foldl (countStep col K) [(col, Value.int 0)]) k =
      getVal r₀ k := by
  rw [List.foldl_cons]
  obtain ⟨h1, h2, h3⟩ := countStep_first col K hcol r₀ hpres
  obtain ⟨ha, hb⟩ := countFold_inv col K hcol r₀ tl _ 1 h1 h2 h3
  refine ⟨?_, hb⟩
  rw [ha]
  congr 2
  push_cast
  ring

/-- C5 (amended, a result column distinct from the grouping keys): `Reduce`
with `Count(col)` emits exactly one row per maximal contiguous key-equal run
of the input — the runs of `groupby`, which are non-empty, partition the
stream and have pairwise different keys at adjacent positions — and that row
holds the group-key columns with the run's values plus `col` mapped to the
run's length. -/
theorem reduce_count_per_run (col : String) (K : List String)
    (rows : List (Row Value)) (hcol : col ∉ K)
    (hpres : ∀ r ∈ rows, ∀ k ∈ K, hasKey r k = true) :
    reduceOp (countCall col) K rows =
      (pyGroupBy (fun r => K.map (fun k => getVal r k)) rows).map
        (fun g => g.2.foldl (countStep col K) [(col, Value.int 0)]) ∧
    (pyGroupBy (fun r => K.map (fun k => getVal r k)) rows).flatMap Prod.snd =
      rows ∧
    List.Chain' (fun p q => p.1 ≠ q.1)
      (pyGroupBy (fun r => K.map (fun k => getVal r k)) rows) ∧
    ∀ p ∈ pyGroupBy (fun r => K.map (fun k => getVal r k)) rows,
      ∃ r₀ tl, p.2 = r₀ :: tl ∧
        countCall col K p.2 =
          [p.2.foldl (countStep col K) [(col, Value.int 0)]] ∧
        getVal (p.2.foldl (countStep col K) [(col, Value.int 0)]) col =
          some (Value.int p.2.length) ∧
        ∀ k ∈ K, getVal (p.2.foldl (countStep col K) [(col, Value.int 0)]) k =
          getVal r₀ k := by
  refine ⟨?_, pyGroupBy_flatMap _ rows, pyGroupBy_chain _ rows, ?_⟩
  · unfold reduceOp countCall
    exact flatMap_singleton_eq_map _ _
  · intro p hp
    obtain ⟨⟨r₀, tl, hrun⟩, hkeys⟩ :=
      pyGroupBy_run_spec (fun r => K.map (fun k => getVal r k)) rows p hp
    refine ⟨r₀, tl, hrun, rfl, ?_, ?_⟩
    · rw [hrun]
      have hr₀mem : r₀ ∈ rows := by
        have : r₀ ∈ (pyGroupBy (fun r => K.map (fun k => getVal r k)) rows).flatMap
            Prod.snd :=
          List.mem_flatMap.mpr ⟨p, hp, by rw [hrun]; exact List.mem_cons_self _ _⟩
        rwa [pyGroupBy_flatMap] at this
      have := (countFold_run col K hcol r₀ tl (hpres r₀ hr₀mem)).1
      rw [this]
      simp [List.length_cons]
    · rw [hrun]
      have hr₀mem : r₀ ∈ rows := by
        have : r₀ ∈ (pyGroupBy (fun r => K.map (fun k => getVal r k)) rows).flatMap
            Prod.snd :=
          List.mem_flatMap.mpr ⟨p, hp, by rw [hrun]; exact List.mem_cons_self _ _⟩
        rwa [pyGroupBy_flatMap] at this
      exact (countFold_run col K hcol r₀ tl (hpres r₀ hr₀mem)).2

/-- Witness for C5 (amended): key `a`, two runs `a=1` (2 rows), `a=2`
(1 row). -/
theorem reduce_count_per_run_witness :
    reduceOp (countCall "cnt") ["a"]
        [[("a", Value.int 1)], [("a", Value.int 1)], [("a", Value.int 2)]] =
      (pyGroupBy (fun r => ["a"].map (fun k => getVal r k))
          [[("a", Value.int 1)], [("a", Value.int 1)], [("a", Value.int 2)]]).map
        (fun g => g.2.foldl (countStep "cnt" ["a"]) [("cnt", Value.int 0)]) ∧
    reduceOp (countCall "cnt") ["a"]
        [[("a", Value.int 1)], [("a", Value.int 1)], [("a", Value.int 2)]] =
      [[("cnt", Value.int 2), ("a", Value.int 1)],
       [("cnt", Value.int 1), ("a", Value.int 2)]] := by
  have h := reduce_count_per_run "cnt" ["a"]
    [[("a", Value.int 1)], [("a", Value.int 1)], [("a", Value.int 2)]]
    (by decide)
    (by intro r hr k hk; fin_cases hr <;> fin_cases hk <;> decide)
  exact ⟨h.1, by decide⟩

/-- C5 (counterexample): when the result column *is* a grouping key (here
`col = "a"`, `K = ["a"]`), the counter occupies the key column, so the
emitted row does not carry the group-key value of the run: on the single
run `[{a: 5}]` the code emits `{a: 1}`, while the claim requires a row `r`
with `r[a] = 5` (the key column's value from the run) as well as the count. -/
theorem reduce_count_col_in_keys :
    reduceOp (countCall "a") ["a"] [[("a", Value.int 5)]] = [[("a", Value.int 1)]] ∧
    ¬ ∃ r, reduceOp (countCall "a") ["a"] [[("a", Value.int 5)]] = [r] ∧
        getVal r "a" = some (Value.int 5) := by
  constructor
  · decide
  · rintro ⟨r, hr, hv⟩
    have : r = [("a", Value.int 1)] := by
      have h : reduceOp (countCall "a") ["a"] [[("a", Value.int 5)]] =
          [[("a", Value.int 1)]] := by decide
      rw [h] at hr
      exact (List.cons.injEq _ _ _ _ ▸ hr).1.symm ▸ rfl
    subst this
    simp [getVal] at hv

end ReduceSection

/-! ## The computational graph (src/graph.py)

A node holds `self._operation` (possibly `None`) and `self._input`; the two
source constructors and the four builder methods each create a fresh node.
`run` materialises: a source consumes the keyword inputs; a one-input node
runs its upstream and applies the operation; a two-input node runs both;
a non-source node without an operation raises `Exception("No generator in
graph")` before touching its inputs. -/

section GraphSection

/-- A node's operation, as the stream transformation its `__call__`
realises on materialised streams (errors model the exceptions the source
raises). -/
inductive Operation : Type where
  | sourceOp (f : (String → Option (List (Row Value))) → Except String (List (Row Value)))
  | unaryOp (f : List (Row Value) → Except String (List (Row Value)))
  | binaryOp (f : List (Row Value) → List (Row Value) →
      Except String (List (Row Value)))

/-- A graph node: `self._operation` and `self._input`.  (`Graph.__init__`
briefly sets `_input = [self]`, but every constructor the engine exposes
overwrites both fields before the node escapes, so reachable nodes form
this inductive.) -/
inductive Graph : Type where
  | mk (operation : Option Operation) (input : List Graph)

def Graph.operation : Graph → Option Operation
  | .mk op _ => op

def Graph.input : Graph → List Graph
  | .mk _ inp => inp

/-- Model of `Graph.graph_from_iter(name)`: a source pulling the iterable named
`name` from the `run` kwargs (`SourceError` when it is missing). -/
def Graph.graph_from_iter (name : String) : Graph :=
  .mk (some (.sourceOp (fun env =>
    match env name with
    | some rows => .ok rows
    | none => .error "SourceError"))) []

/-- Model of `Graph.map(mapper)`: a new node wrapping `Map(mapper)` with `[self]` as
input. -/
def Graph.map (self : Graph) (mapper : Row Value → List (Row Value)) : Graph :=
  .mk (some (.unaryOp (fun rows => .ok (mapOp mapper rows)))) [self]

/-- Model of `Graph.reduce(reducer, keys)`. -/
def Graph.reduce (self : Graph)
    (reducer : List String → List (Row Value) → List (Row Value))
    (keys : List String) : Graph :=
  .mk (some (.unaryOp (fun rows => .ok (reduceOp reducer keys rows)))) [self]

/-- Model of `Graph.sort(keys, reverse)`, wrapping `ExternalSort` (with no keys,
`itemgetter()` raises `TypeError` in the sort helper). -/
def Graph.sort (self : Graph) (keys : List String) (reverse : Bool) : Graph :=
  .mk (some (.unaryOp (fun rows =>
    if keys.isEmpty then .error "TypeError"
    else .ok (externalSort keys reverse rows)))) [self]

/-- Model of `Graph.join(joiner, join_graph, keys)`: a two-input node wrapping
`Join(joiner, keys)`. -/
def Graph.join (self : Graph)
    (joiner : List String → List (Row Value) → List (Row Value) → List (Row Value))
    (join_graph : Graph) (keys : List String) : Graph :=
  .mk (some (.binaryOp (fun rowsA rowsB =>
    .ok (joinOp (joiner keys) keys rowsA rowsB)))) [self, join_graph]

/-- Model of `Graph.run(**kwargs)`: sources apply their operation to the kwargs; a
node with inputs checks `self._operation is not None` first and only then
runs its first input, then — when a second input exists — the second, and
applies the operation (a unary operation called with two streams ignores the
extra positional argument, as `Map.__call__(rows, *args)` does). -/
def Graph.run : Graph → (String → Option (List (Row Value))) →
    Except String (List (Row Value))
  | .mk none [], _ => .error "TypeError"
  | .mk (some (.sourceOp f)) [], env => f env
  | .mk (some _) [], _ => .error "TypeError"
  | .mk none (_ :: _), _ => .error "No generator in graph"
  | .mk (some op) [g₁], env =>
      (Graph.run g₁ env).bind (fun s₁ =>
        match op with
        | .unaryOp f => f s₁
        | _ => .error "TypeError")
  | .mk (some op) (g₁ :: g₂ :: _), env =>
      (Graph.run g₁ env).bind (fun s₁ =>
        (Graph.run g₂ env).bind (fun s₂ =>
          match op with
          | .unaryOp f => f s₁
          | .binaryOp f => f s₁ s₂
          | .sourceOp _ => .error "TypeError"))

/-- C7: running a non-source node (it has at least one input) whose
operation is absent fails at `run` entry with the "No generator in graph"
error, whatever the inputs bound at `run` and whatever the upstream nodes
are — no input stream is constructed or consumed. -/
theorem run_no_operation (g₁ : Graph) (rest : List Graph)
    (env : String → Option (List (Row Value))) :
    Graph.run (.mk none (g₁ :: rest)) env = .error "No generator in graph" := by
  simp [Graph.run]

/-- A node is never equal to a node that contains it among its inputs. -/
theorem Graph.mk_ne_of_mem_input (op : Option Operation) (l : List Graph)
    (g : Graph) (hg : g ∈ l) : Graph.mk op l ≠ g := by
  intro he
  have h1 : sizeOf g < sizeOf l := List.sizeOf_lt_of_mem hg
  have hs : sizeOf g < sizeOf (Graph.mk op l) := by
    simp only [Graph.mk.sizeOf_spec]
    omega
  rw [he] at hs
  exact lt_irrefl _ hs

/-- C9: each builder method returns a *new* node — distinct from the
receiver — that holds an operation and whose input list contains exactly the
receiver (and, for `join`, the second graph); the receiver itself is stored
untouched inside the new node, so nodes are immutable values that can be
reused by several downstream nodes and `run` calls. -/
theorem builders_return_new_nodes (g other : Graph)
    (mapper : Row Value → List (Row Value))
    (reducer : List String → List (Row Value) → List (Row Value))
    (keys keys₂ keys₃ : List String) (reverse : Bool)
    (joiner : List String → List (Row Value) → List (Row Value) → List (Row Value)) :
    ((g.map mapper).input = [g] ∧ (g.map mapper).operation.isSome = true ∧
      g.map mapper ≠ g) ∧
    ((g.reduce reducer keys).input = [g] ∧
      (g.reduce reducer keys).operation.isSome = true ∧ g.reduce reducer keys ≠ g) ∧
    ((g.sort keys₂ reverse).input = [g] ∧
      (g.sort keys₂ reverse).operation.isSome = true ∧ g.sort keys₂ reverse ≠ g) ∧
    ((g.join joiner other keys₃).input = [g, other] ∧
      (g.join joiner other keys₃).operation.isSome = true ∧
      g.join joiner other keys₃ ≠ g) := by
  refine ⟨⟨rfl, rfl, ?_⟩, ⟨rfl, rfl, ?_⟩, ⟨rfl, rfl, ?_⟩, ⟨rfl, rfl, ?_⟩⟩
  · exact Graph.mk_ne_of_mem_input _ [g] g (List.mem_singleton_self g)
  · exact Graph.mk_ne_of_mem_input _ [g] g (List.mem_singleton_self g)
  · exact Graph.mk_ne_of_mem_input _ [g] g (List.mem_singleton_self g)
  · exact Graph.mk_ne_of_mem_input _ [g, other] g (List.mem_cons_self _ _)

end GraphSection

end MapReduce
